import Mathlib

/-!
Verification of the note-taker application's core behavioral contract:
the document/session state machine and the find/substring-matching engine,
shallowly embedded from `src/main.py` (class `NoteApp`).

The text buffer is modelled as a `List Char`, holding the user-visible
widget content (Tk index `"1.0"` to `"end-1c"`).  The Tk text widget
always keeps one extra automatic newline at the very end, so
`text_area.get("1.0", tk.END)` returns the buffer followed by `'\n'`;
this shows up in the embedding of `save_file`.
-/

namespace NoteTaker

/-- Case folding used to model Tk's `nocase=True` search option
(ASCII folding, as provided by `Char.toLower`). -/
def lowerChar (c : Char) : Char := c.toLower

/-- `matchesAt buf pat i` holds when the pattern occurs (case-insensitively)
in the buffer at offset `i`: the pattern fits inside the buffer and the
`pat.length` characters of `buf` starting at `i` agree with `pat` up to
case folding. -/
def matchesAt (buf pat : List Char) (i : Nat) : Bool :=
  decide (i + pat.length ≤ buf.length) &&
    ((buf.drop i).take pat.length).map lowerChar == pat.map lowerChar

/-- Scanning loop of Tk's forward `text.search`: try offsets `i`,
`i+1`, ... for `n` steps, returning the first offset that matches. -/
def searchGo (buf pat : List Char) : Nat → Nat → Option Nat
  | 0, _ => none
  | n + 1, i => if matchesAt buf pat i then some i else searchGo buf pat n (i + 1)

/-- Embedding of `text_area.search(pat, start, stopindex=stop, nocase=True)`
(forward search): the first offset `j` with `start ≤ j < stop` at which the
pattern matches case-insensitively. -/
def searchFrom (buf pat : List Char) (start stop : Nat) : Option Nat :=
  searchGo buf pat (stop - start) start

/-- Find Engine `findNext` (`NoteApp._find_next`, the search logic of lines
348-358 given the pattern): empty pattern is a no-op; otherwise search
forward from `fromPos` to the end of the buffer, and if that fails wrap
around and search from the start of the buffer up to `fromPos`.  A match is
returned as a half-open offset range `(i, i + pat.length)`. -/
def findNext (buf pat : List Char) (fromPos : Nat) : Option (Nat × Nat) :=
  if pat = [] then none
  else
    match searchFrom buf pat fromPos buf.length with
    | some i => some (i, i + pat.length)
    | none =>
      match searchFrom buf pat 0 fromPos with
      | some i => some (i, i + pat.length)
      | none => none

/-- Loop of `NoteApp._highlight_all` (lines 370-377): repeatedly search
forward from `start`, record the match range, and resume at the end of the
recorded match.  The structural `fuel` argument only bounds the number of
iterations; `buf.length + 1` iterations always suffice for a non-empty
pattern, because each recorded match advances `start` by at least one. -/
def findAllGo (buf pat : List Char) : Nat → Nat → List (Nat × Nat)
  | 0, _ => []
  | fuel + 1, start =>
    match searchFrom buf pat start buf.length with
    | none => []
    | some i => (i, i + pat.length) :: findAllGo buf pat fuel (i + pat.length)

/-- Find Engine `findAll` (`NoteApp._highlight_all` given the pattern):
empty pattern produces nothing; otherwise collect non-overlapping matches
scanning left-to-right from offset `0`. -/
def findAll (buf pat : List Char) : List (Nat × Nat) :=
  if pat = [] then [] else findAllGo buf pat (buf.length + 1) 0

/-- ASCII whitespace recognized by Python's default `str.strip()`:
space, tab, newline, carriage return, vertical tab, form feed.
(Further Unicode whitespace accepted by Python is not exercised here.) -/
def pyIsSpace (c : Char) : Bool :=
  c = ' ' || c = '\t' || c = '\n' || c = '\r' || c = Char.ofNat 11 || c = Char.ofNat 12

/-- Python `str.strip()`: drop leading and trailing whitespace. -/
def pyStrip (s : List Char) : List Char :=
  ((s.dropWhile pyIsSpace).reverse.dropWhile pyIsSpace).reverse

/-- Full `NoteApp._find_next` handler (lines 346-363): the entered text is
stripped first (line 347), an empty stripped pattern is a no-op (line 348),
then the forward-with-wraparound search runs. -/
def find_next_handler (buf rawPat : List Char) (fromPos : Nat) : Option (Nat × Nat) :=
  let pattern := pyStrip rawPat
  if pattern = [] then none
  else
    match searchFrom buf pattern fromPos buf.length with
    | some i => some (i, i + pattern.length)
    | none =>
      match searchFrom buf pattern 0 fromPos with
      | some i => some (i, i + pattern.length)
      | none => none

/-- Full `NoteApp._highlight_all` handler (lines 365-377): the entered text
is stripped first (line 366), an empty stripped pattern is a no-op
(line 367), then all non-overlapping matches are collected from offset 0. -/
def highlight_all_handler (buf rawPat : List Char) : List (Nat × Nat) :=
  let pattern := pyStrip rawPat
  if pattern = [] then [] else findAllGo buf pattern (buf.length + 1) 0

/-- Python `content.rstrip("\n")` (line 280): drop every trailing `'\n'`. -/
def pyRstripNL (s : List Char) : List Char :=
  (s.reverse.dropWhile (fun c => c = '\n')).reverse

/-- Bytes written by a successful save (`NoteApp.save_file` lines 278-281):
`content = text_area.get("1.0", tk.END)` is the buffer plus the automatic
trailing `'\n'` of the Tk text widget; the file receives
`content.rstrip("\n")` followed by one `'\n'`. -/
def savedContent (buffer : List Char) : List Char :=
  pyRstripNL (buffer ++ ['\n']) ++ ['\n']

/-- File paths, as plain strings. -/
abbrev FsPath := List Char

/-- Document Session state: the in-memory buffer (user-visible widget
content), the associated file path, and the modification flag
(`NoteApp.current_file_path`, `NoteApp.is_modified`, and the text widget
content). -/
structure Session where
  buffer : List Char
  current_file_path : Option FsPath
  is_modified : Bool
deriving DecidableEq

/-- Startup state (`NoteApp.__init__`): empty buffer, no path, unmodified. -/
def initSession : Session := ⟨[], none, false⟩

/-- Failure modes of opening or saving a file, all surfaced by the code
as a dismissible message box. -/
inductive IoErr
  | notFound
  | permissionDenied
  | decodeFailed
deriving DecidableEq

/-- Outcome of `messagebox.askyesnocancel` in `maybe_save_changes`:
`Yes` = save, `No` = discard, `Cancel`/close = abort. -/
inductive Choice
  | saveChoice
  | discardChoice
  | cancelChoice
deriving DecidableEq

/-- The write step of `NoteApp.save_file` (lines 277-288) once a path is
present: on a successful write (`writeOk = true`, bytes
`savedContent st.buffer` go to `st.current_file_path`) clear
`is_modified` and return `true`; on an `IOError` the `except` branch shows
a message and returns `false` with no state change. -/
def save_write (st : Session) (writeOk : Bool) : Session × Bool :=
  if writeOk then ({ st with is_modified := false }, true) else (st, false)

/-- Bytes that `save_write` sends to the filesystem when it succeeds. -/
def save_write_bytes (st : Session) : List Char := savedContent st.buffer

/-- `NoteApp.save_file_as` (lines 290-305): ask for a path (`dialog`);
a cancelled dialog returns `false` with no change; otherwise the chosen
path is assigned to `current_file_path` (line 304) and `save_file` is
re-entered (line 305), which now finds a path set and performs the write. -/
def save_file_as (st : Session) (dialog : Option FsPath) (writeOk : Bool) :
    Session × Bool :=
  match dialog with
  | none => (st, false)
  | some p => save_write { st with current_file_path := some p } writeOk

/-- `NoteApp.save_file` (lines 274-288): with no current path, delegate to
`save_file_as` (lines 275-276); otherwise perform the write. -/
def save_file (st : Session) (dialog : Option FsPath) (writeOk : Bool) :
    Session × Bool :=
  match st.current_file_path with
  | none => save_file_as st dialog writeOk
  | some _ => save_write st writeOk

/-- `NoteApp.maybe_save_changes` (lines 221-229), the spec's
`confirmDiscard`: an unmodified session proceeds at once; otherwise the
user's three-way choice decides — Cancel aborts, Save delegates to
`save_file` and proceeds only if it succeeded, Discard proceeds. -/
def maybe_save_changes (st : Session) (c : Choice) (dialog : Option FsPath)
    (writeOk : Bool) : Session × Bool :=
  if st.is_modified = false then (st, true)
  else
    match c with
    | .cancelChoice => (st, false)
    | .saveChoice => save_file st dialog writeOk
    | .discardChoice => (st, true)

/-- `NoteApp.new_file` (lines 231-242): run the unsaved-changes guard; if
it allows, clear the buffer, drop the path, and clear `is_modified`. -/
def new_file (st : Session) (c : Choice) (dialog : Option FsPath)
    (writeOk : Bool) : Session :=
  let ms := maybe_save_changes st c dialog writeOk
  if ms.2 then ⟨[], none, false⟩ else ms.1

/-- `NoteApp.open_file` (lines 244-272): run the unsaved-changes guard,
then the open dialog (`odialog`); a cancelled dialog is a no-op.  The read
(`readResult`) either fails with an `IOError` — message box, early return,
no mutation (lines 260-262) — or succeeds, replacing the buffer wholesale,
setting the path, and clearing `is_modified` (lines 263-266). -/
def open_file (st : Session) (c : Choice) (sdialog : Option FsPath)
    (writeOk : Bool) (odialog : Option FsPath)
    (readResult : Except IoErr (List Char)) : Session :=
  let ms := maybe_save_changes st c sdialog writeOk
  if ms.2 then
    match odialog with
    | none => ms.1
    | some p =>
      match readResult with
      | .error _ => ms.1
      | .ok content => ⟨content, some p, false⟩
  else ms.1

/-- User-visible events of one Document Session, with every external
response (dialog results, user choices, filesystem outcomes) supplied as
event data. -/
inductive Ev
  | edit (b : List Char)
  | saveEv (d : Option FsPath) (w : Bool)
  | saveAsEv (d : Option FsPath) (w : Bool)
  | newEv (c : Choice) (d : Option FsPath) (w : Bool)
  | openEv (c : Choice) (sd : Option FsPath) (w : Bool) (od : Option FsPath)
      (rd : Except IoErr (List Char))

/-- Session state extended with the history variable `lastSnap`: the buffer
content captured at the most recent successful load or save (the spec's
"last-loaded/saved content"), empty for a fresh session. -/
structure GSession where
  sess : Session
  lastSnap : List Char
deriving DecidableEq

/-- Fresh application state with its history variable. -/
def initG : GSession := ⟨initSession, []⟩

/-- Did the unsaved-changes guard perform a successful save?  If so, the
snapshot it persisted is the (unchanged) buffer. -/
def confirmSnap (st : Session) (c : Choice) (d : Option FsPath) (w : Bool) :
    Option (List Char) :=
  if st.is_modified = true ∧ c = .saveChoice ∧ (save_file st d w).2 = true then
    some st.buffer
  else none

/-- One step of the Document Session, tracking `lastSnap` alongside the
program state.  An edit is any buffer mutation: the `<<Modified>>` handler
`NoteApp._on_text_modified` (lines 190-197) sets `is_modified` regardless
of the resulting content.  A successful save snapshots the buffer; a
successful open snapshots the loaded content; `new_file`, when it
proceeds, resets the session (fresh content is empty). -/
def gstep (g : GSession) : Ev → GSession
  | .edit b => ⟨{ g.sess with buffer := b, is_modified := true }, g.lastSnap⟩
  | .saveEv d w =>
    let r := save_file g.sess d w
    ⟨r.1, if r.2 then g.sess.buffer else g.lastSnap⟩
  | .saveAsEv d w =>
    let r := save_file_as g.sess d w
    ⟨r.1, if r.2 then g.sess.buffer else g.lastSnap⟩
  | .newEv c d w =>
    let st := new_file g.sess c d w
    if (maybe_save_changes g.sess c d w).2 then ⟨st, []⟩ else ⟨st, g.lastSnap⟩
  | .openEv c sd w od rd =>
    let st := open_file g.sess c sd w od rd
    if (maybe_save_changes g.sess c sd w).2 then
      match od, rd with
      | some _, .ok content => ⟨st, content⟩
      | _, _ => ⟨st, (confirmSnap g.sess c sd w).getD g.lastSnap⟩
    else ⟨st, g.lastSnap⟩

/-- States reachable from startup by any sequence of events. -/
inductive Reachable : GSession → Prop
  | init : Reachable initG
  | step (g : GSession) (e : Ev) : Reachable g → Reachable (gstep g e)

theorem matchesAt_le {buf pat : List Char} {i : Nat}
    (h : matchesAt buf pat i = true) : i + pat.length ≤ buf.length := by
  unfold matchesAt at h
  exact of_decide_eq_true (Bool.and_eq_true_iff.mp h).1

theorem matchesAt_false_of_le {buf pat : List Char} {i : Nat}
    (hp : pat ≠ []) (h : buf.length ≤ i) : matchesAt buf pat i = false := by
  unfold matchesAt
  have hlen : 0 < pat.length := List.length_pos.mpr hp
  have : ¬ (i + pat.length ≤ buf.length) := by omega
  simp [this]

theorem searchGo_some {buf pat : List Char} :
    ∀ {n i j : Nat}, searchGo buf pat n i = some j →
      i ≤ j ∧ j < i + n ∧ matchesAt buf pat j = true ∧
        ∀ k, i ≤ k → k < j → matchesAt buf pat k = false := by
  intro n
  induction n with
  | zero => intro i j h; simp [searchGo] at h
  | succ n ih =>
    intro i j h
    by_cases hm : matchesAt buf pat i = true
    · simp [searchGo, hm] at h
      subst h
      exact ⟨Nat.le_refl i, by omega, hm, fun k hk1 hk2 => absurd hk1 (by omega)⟩
    · simp [searchGo, hm] at h
      obtain ⟨h1, h2, h3, h4⟩ := ih h
      refine ⟨by omega, by omega, h3, ?_⟩
      intro k hk1 hk2
      rcases Nat.lt_or_ge k (i + 1) with hk | hk
      · have : k = i := by omega
        subst this
        exact Bool.eq_false_iff.mpr hm
      · exact h4 k hk hk2

theorem searchGo_none_iff {buf pat : List Char} :
    ∀ {n i : Nat}, searchGo buf pat n i = none ↔
      ∀ j, i ≤ j → j < i + n → matchesAt buf pat j = false := by
  intro n
  induction n with
  | zero =>
    intro i
    simp [searchGo]
    intro j h1 h2
    omega
  | succ n ih =>
    intro i
    by_cases hm : matchesAt buf pat i = true
    · simp [searchGo, hm]
      exact ⟨i, Nat.le_refl i, by omega, hm⟩
    · have hstep : searchGo buf pat (n + 1) i = searchGo buf pat n (i + 1) := by
        simp [searchGo, hm]
      rw [hstep]
      constructor
      · intro h j hj1 hj2
        rcases Nat.lt_or_ge j (i + 1) with hj | hj
        · have : j = i := by omega
          subst this
          exact Bool.eq_false_iff.mpr hm
        · exact (ih.mp h) j hj (by omega)
      · intro h
        exact ih.mpr (fun j hj1 hj2 => h j (by omega) (by omega))

theorem searchFrom_some {buf pat : List Char} {start stop j : Nat}
    (h : searchFrom buf pat start stop = some j) :
    start ≤ j ∧ j < stop ∧ matchesAt buf pat j = true ∧
      ∀ k, start ≤ k → k < j → matchesAt buf pat k = false := by
  obtain ⟨h1, h2, h3, h4⟩ := searchGo_some h
  exact ⟨h1, by omega, h3, h4⟩

theorem searchFrom_none_iff {buf pat : List Char} {start stop : Nat} :
    searchFrom buf pat start stop = none ↔
      ∀ j, start ≤ j → j < stop → matchesAt buf pat j = false := by
  unfold searchFrom
  rw [searchGo_none_iff]
  constructor
  · intro h j hj1 hj2
    exact h j hj1 (by omega)
  · intro h j hj1 hj2
    exact h j hj1 (by omega)

/-- C1: `findNext` performs a case-insensitive substring search from the
starting position through the end of the buffer; if no match is found
there, it searches again from the start of the buffer up to the starting
position; it returns the first match found in that order (as a half-open
range), and — for a non-empty pattern — returns `none` exactly when the
pattern occurs nowhere in the buffer.  For an empty pattern it returns no
match and raises no error. -/
theorem C1_find_next (buf pat : List Char) (fromPos : Nat) :
    (pat = [] → findNext buf pat fromPos = none) ∧
    (pat ≠ [] →
      ((findNext buf pat fromPos = none ↔ ∀ i, matchesAt buf pat i = false) ∧
       (∀ s e, findNext buf pat fromPos = some (s, e) →
          matchesAt buf pat s = true ∧ e = s + pat.length ∧
          ((fromPos ≤ s ∧ ∀ j, fromPos ≤ j → matchesAt buf pat j = true → s ≤ j) ∨
           (s < fromPos ∧ (∀ j, fromPos ≤ j → matchesAt buf pat j = false) ∧
            (∀ j, matchesAt buf pat j = true → s ≤ j)))))) := by
  constructor
  · intro h
    simp [findNext, h]
  · intro hp
    rcases hfwd : searchFrom buf pat fromPos buf.length with _ | i
    · rcases hwrap : searchFrom buf pat 0 fromPos with _ | i
      · have hnone : findNext buf pat fromPos = none := by
          simp [findNext, hp, hfwd, hwrap]
        have hAll : ∀ j, matchesAt buf pat j = false := by
          intro j
          rcases Nat.lt_or_ge j fromPos with hj | hj
          · exact searchFrom_none_iff.mp hwrap j (Nat.zero_le j) hj
          · rcases Nat.lt_or_ge j buf.length with hj2 | hj2
            · exact searchFrom_none_iff.mp hfwd j hj hj2
            · exact matchesAt_false_of_le hp hj2
        refine ⟨iff_of_true hnone hAll, ?_⟩
        intro s e hse
        rw [hnone] at hse
        exact Option.noConfusion hse
      · obtain ⟨h1, h2, h3, h4⟩ := searchFrom_some hwrap
        have hfwdAll : ∀ j, fromPos ≤ j → matchesAt buf pat j = false := by
          intro j hj
          rcases Nat.lt_or_ge j buf.length with hj2 | hj2
          · exact searchFrom_none_iff.mp hfwd j hj hj2
          · exact matchesAt_false_of_le hp hj2
        have heq : findNext buf pat fromPos = some (i, i + pat.length) := by
          simp [findNext, hp, hfwd, hwrap]
        constructor
        · refine iff_of_false (fun h => ?_) (fun hAll => ?_)
          · rw [heq] at h
            exact Option.noConfusion h
          · rw [hAll i] at h3
            exact Bool.noConfusion h3
        · intro s e hse
          rw [heq] at hse
          simp only [Option.some.injEq, Prod.mk.injEq] at hse
          obtain ⟨rfl, rfl⟩ := hse
          refine ⟨h3, rfl, Or.inr ⟨h2, hfwdAll, ?_⟩⟩
          intro j hj
          by_contra hcon
          rcases Nat.lt_or_ge j fromPos with hjf | hjf
          · rw [h4 j (Nat.zero_le j) (by omega)] at hj
            exact Bool.noConfusion hj
          · rw [hfwdAll j hjf] at hj
            exact Bool.noConfusion hj
    · obtain ⟨h1, h2, h3, h4⟩ := searchFrom_some hfwd
      have heq : findNext buf pat fromPos = some (i, i + pat.length) := by
        simp [findNext, hp, hfwd]
      constructor
      · refine iff_of_false (fun h => ?_) (fun hAll => ?_)
        · rw [heq] at h
          exact Option.noConfusion h
        · rw [hAll i] at h3
          exact Bool.noConfusion h3
      · intro s e hse
        rw [heq] at hse
        simp only [Option.some.injEq, Prod.mk.injEq] at hse
        obtain ⟨rfl, rfl⟩ := hse
        refine ⟨h3, rfl, Or.inl ⟨h1, ?_⟩⟩
        intro j hj hmj
        by_contra hcon
        rw [h4 j hj (by omega)] at hmj
        exact Bool.noConfusion hmj

/-- Witness for C1 at a concrete input: searching for "CAT" in
"cat bat cat" from position 1 finds the occurrence at offsets [8, 11). -/
theorem C1_find_next_witness :
    findNext "cat bat cat".toList "CAT".toList 1 = some (8, 11) ∧
    matchesAt "cat bat cat".toList "CAT".toList 8 = true := by
  have h := ((C1_find_next "cat bat cat".toList "CAT".toList 1).2
    (by decide)).2 8 11 (by decide)
  exact ⟨by decide, h.1⟩

theorem findAllGo_spec (buf pat : List Char) (hp : pat ≠ []) :
    ∀ fuel start, buf.length < start + fuel →
      (∀ r ∈ findAllGo buf pat fuel start,
          start ≤ r.1 ∧ matchesAt buf pat r.1 = true ∧ r.2 = r.1 + pat.length) ∧
      (findAllGo buf pat fuel start = [] ↔
          ∀ j, start ≤ j → matchesAt buf pat j = false) ∧
      (∀ r, (findAllGo buf pat fuel start).head? = some r →
          ∀ j, start ≤ j → j < r.1 → matchesAt buf pat j = false) ∧
      List.Chain' (fun a b => a.2 ≤ b.1 ∧
          ∀ j, a.2 ≤ j → j < b.1 → matchesAt buf pat j = false)
        (findAllGo buf pat fuel start) ∧
      (∀ r, (findAllGo buf pat fuel start).getLast? = some r →
          ∀ j, r.2 ≤ j → matchesAt buf pat j = false) ∧
      List.Pairwise (fun a b => a.2 ≤ b.1) (findAllGo buf pat fuel start) := by
  intro fuel
  induction fuel with
  | zero =>
    intro start hfuel
    have hAll : ∀ j, start ≤ j → matchesAt buf pat j = false := fun j hj =>
      matchesAt_false_of_le hp (by omega)
    have hres : findAllGo buf pat 0 start = [] := rfl
    rw [hres]
    exact ⟨by simp, iff_of_true rfl hAll, by simp, List.chain'_nil, by simp,
      List.Pairwise.nil⟩
  | succ fuel ih =>
    intro start hfuel
    rcases hsf : searchFrom buf pat start buf.length with _ | i
    · have hAll : ∀ j, start ≤ j → matchesAt buf pat j = false := by
        intro j hj
        rcases Nat.lt_or_ge j buf.length with hj2 | hj2
        · exact searchFrom_none_iff.mp hsf j hj hj2
        · exact matchesAt_false_of_le hp hj2
      have hres : findAllGo buf pat (fuel + 1) start = [] := by
        simp [findAllGo, hsf]
      rw [hres]
      exact ⟨by simp, iff_of_true rfl hAll, by simp, List.chain'_nil, by simp,
        List.Pairwise.nil⟩
    · obtain ⟨h1, h2, h3, h4⟩ := searchFrom_some hsf
      have hL : 0 < pat.length := List.length_pos.mpr hp
      have hres : findAllGo buf pat (fuel + 1) start =
          (i, i + pat.length) :: findAllGo buf pat fuel (i + pat.length) := by
        simp [findAllGo, hsf]
      obtain ⟨ia, ib, ic, id, ie, ifp⟩ := ih (i + pat.length) (by omega)
      rw [hres]
      refine ⟨?_, ?_, ?_, ?_, ?_, ?_⟩
      · intro r hr
        rcases List.mem_cons.mp hr with rfl | hr'
        · exact ⟨h1, h3, rfl⟩
        · obtain ⟨ha, hb, hc⟩ := ia r hr'
          exact ⟨by omega, hb, hc⟩
      · refine iff_of_false (by simp) (fun hAll => ?_)
        rw [hAll i h1] at h3
        exact Bool.noConfusion h3
      · intro r hr
        simp only [List.head?_cons, Option.some.injEq] at hr
        subst hr
        intro j hj1 hj2
        exact h4 j hj1 hj2
      · rw [List.chain'_cons']
        refine ⟨?_, id⟩
        intro b hb
        have hbmem : b ∈ findAllGo buf pat fuel (i + pat.length) :=
          List.mem_of_mem_head? hb
        obtain ⟨hb1, _, _⟩ := ia b hbmem
        exact ⟨hb1, fun j hj1 hj2 => ic b (Option.mem_def.mp hb) j hj1 hj2⟩
      · intro r hr
        rcases hrest : findAllGo buf pat fuel (i + pat.length) with _ | ⟨r2, t⟩
        · rw [hrest] at hr
          simp only [List.getLast?_singleton, Option.some.injEq] at hr
          subst hr
          intro j hj
          exact (ib.mp hrest) j hj
        · rw [hrest, List.getLast?_cons_cons] at hr
          refine ie r ?_
          rw [hrest]
          exact hr
      · refine List.Pairwise.cons ?_ ifp
        intro b hb
        exact (ia b hb).1

/-- C2: for a non-empty pattern, `findAll` returns exactly the
non-overlapping, case-insensitive occurrences of the pattern scanned
left-to-right, each search resuming at the end of the previous match: every
returned range is an occurrence of length `pat.length`, no occurrence is
skipped before the first range, between consecutive ranges, or after the
last one, and the ranges are in strictly increasing order and pairwise
disjoint.  For an empty pattern or a buffer with no occurrence the result
is the empty sequence.  On buffer "cat bat cat" with pattern "cat" it
returns exactly [0, 3) and [8, 11). -/
theorem C2_find_all (buf pat : List Char) :
    (pat = [] → findAll buf pat = []) ∧
    (pat ≠ [] →
      ((findAll buf pat = [] ↔ ∀ j, matchesAt buf pat j = false) ∧
       (∀ r ∈ findAll buf pat,
          matchesAt buf pat r.1 = true ∧ r.2 = r.1 + pat.length) ∧
       (∀ r, (findAll buf pat).head? = some r →
          ∀ j, j < r.1 → matchesAt buf pat j = false) ∧
       List.Chain' (fun a b => a.2 ≤ b.1 ∧
          ∀ j, a.2 ≤ j → j < b.1 → matchesAt buf pat j = false)
         (findAll buf pat) ∧
       (∀ r, (findAll buf pat).getLast? = some r →
          ∀ j, r.2 ≤ j → matchesAt buf pat j = false) ∧
       List.Pairwise (fun a b => a.2 ≤ b.1) (findAll buf pat))) ∧
    findAll "cat bat cat".toList "cat".toList = [(0, 3), (8, 11)] := by
  refine ⟨fun h => by simp [findAll, h], fun hp => ?_, by decide⟩
  have hfa : findAll buf pat = findAllGo buf pat (buf.length + 1) 0 := by
    simp [findAll, hp]
  obtain ⟨ia, ib, ic, id, ie, ifp⟩ :=
    findAllGo_spec buf pat hp (buf.length + 1) 0 (by omega)
  rw [hfa]
  refine ⟨?_, ?_, ?_, id, ie, ifp⟩
  · rw [ib]
    exact ⟨fun h j => h j (Nat.zero_le j), fun h j _ => h j⟩
  · intro r hr
    exact ⟨(ia r hr).2.1, (ia r hr).2.2⟩
  · intro r hr j hj
    exact ic r hr j (Nat.zero_le j) hj

/-- Witness for C2 at a concrete input: the second range returned on
"cat bat cat" / "cat" really is a case-insensitive occurrence. -/
theorem C2_find_all_witness :
    matchesAt "cat bat cat".toList "cat".toList 8 = true := by
  have h := ((C2_find_all "cat bat cat".toList "cat".toList).2.1
    (by decide)).2.1 (8, 11) (by decide)
  exact h.1

theorem pyStrip_eq_nil_of_space {p : List Char}
    (h : ∀ c ∈ p, pyIsSpace c = true) : pyStrip p = [] := by
  unfold pyStrip
  rw [List.dropWhile_eq_nil_iff.mpr h]
  rfl

theorem head_dropWhile_false {α : Type} {p : α → Bool} :
    ∀ (l : List α) (a : α), (l.dropWhile p).head? = some a → p a = false := by
  intro l
  induction l with
  | nil =>
    intro a h
    simp [List.dropWhile] at h
  | cons x xs ih =>
    intro a h
    by_cases hx : p x = true
    · rw [List.dropWhile_cons_of_pos hx] at h
      exact ih a h
    · rw [List.dropWhile_cons_of_neg hx] at h
      simp only [List.head?_cons, Option.some.injEq] at h
      subst h
      exact Bool.eq_false_iff.mpr hx

theorem pyRstripNL_append_nl (s : List Char) :
    pyRstripNL (s ++ ['\n']) = pyRstripNL s := by
  unfold pyRstripNL
  rw [List.reverse_append]
  simp [List.dropWhile_cons_of_pos]

theorem pyRstripNL_getLast? (s : List Char) :
    ((pyRstripNL s).getLast? == some '\n') = false := by
  unfold pyRstripNL
  rw [List.getLast?_reverse]
  rcases hh : (s.reverse.dropWhile (fun c => c = '\n')).head? with _ | a
  · rfl
  · have := head_dropWhile_false _ a hh
    simp only [decide_eq_false_iff_not] at this
    simp [this]

theorem pyRstripNL_decomposition (s : List Char) :
    ∃ n, s = pyRstripNL s ++ List.replicate n '\n' := by
  refine ⟨(s.reverse.takeWhile (fun c => c = '\n')).length, ?_⟩
  have hsplit := List.takeWhile_append_dropWhile (fun c => c = '\n') s.reverse
  have htake : s.reverse.takeWhile (fun c => c = '\n') =
      List.replicate (s.reverse.takeWhile (fun c => c = '\n')).length '\n' := by
    refine List.eq_replicate_of_mem ?_
    intro b hb
    have := List.mem_takeWhile_imp hb
    simpa using this
  calc s = s.reverse.reverse := (List.reverse_reverse s).symm
    _ = (s.reverse.takeWhile (fun c => c = '\n') ++
          s.reverse.dropWhile (fun c => c = '\n')).reverse := by rw [hsplit]
    _ = pyRstripNL s ++ (s.reverse.takeWhile (fun c => c = '\n')).reverse := by
          rw [List.reverse_append]; rfl
    _ = pyRstripNL s ++
          List.replicate (s.reverse.takeWhile (fun c => c = '\n')).length '\n' := by
          rw [htake, List.reverse_replicate]
          simp

/-- C3: a successful save persists exactly the buffer with its trailing
newlines normalized to exactly one: the written bytes are the buffer
without its trailing newlines followed by a single `'\n'` (the buffer
itself differs from that core only by trailing newlines, and the written
bytes end in a `'\n'` that is not preceded by another `'\n'`).  Saving the
buffer "hello\n\n\n" persists exactly "hello\n". -/
theorem C3_save_normalizes (buffer : List Char) :
    savedContent buffer = pyRstripNL buffer ++ ['\n'] ∧
    (∃ n, buffer = pyRstripNL buffer ++ List.replicate n '\n') ∧
    (savedContent buffer).getLast? = some '\n' ∧
    (((savedContent buffer).dropLast.getLast? == some '\n') = false) ∧
    savedContent "hello\n\n\n".toList = "hello\n".toList := by
  have h1 : savedContent buffer = pyRstripNL buffer ++ ['\n'] := by
    unfold savedContent
    rw [pyRstripNL_append_nl]
  refine ⟨h1, pyRstripNL_decomposition buffer, ?_, ?_, by decide⟩
  · rw [h1, List.getLast?_append]
    rfl
  · rw [h1, List.dropLast_concat]
    exact pyRstripNL_getLast? buffer

/-- C8: both find handlers strip leading and trailing whitespace from the
entered pattern before searching — they behave exactly as `findNext` /
`findAll` called on the stripped pattern — and a whitespace-only pattern
is treated as empty: no match, no highlight, no error. -/
theorem C8_handlers_strip (buf p : List Char) (fromPos : Nat) :
    find_next_handler buf p fromPos = findNext buf (pyStrip p) fromPos ∧
    highlight_all_handler buf p = findAll buf (pyStrip p) ∧
    ((∀ c ∈ p, pyIsSpace c = true) →
      find_next_handler buf p fromPos = none ∧
      highlight_all_handler buf p = []) := by
  refine ⟨rfl, rfl, fun h => ?_⟩
  have hs : pyStrip p = [] := pyStrip_eq_nil_of_space h
  constructor
  · show findNext buf (pyStrip p) fromPos = none
    rw [hs]
    rfl
  · show findAll buf (pyStrip p) = []
    rw [hs]
    rfl

/-- Witness for C8 at a concrete input: the whitespace-only pattern
" \t " finds nothing and highlights nothing in buffer "abc". -/
theorem C8_handlers_strip_witness :
    find_next_handler "abc".toList " \t ".toList 0 = none ∧
    highlight_all_handler "abc".toList " \t ".toList = [] :=
  (C8_handlers_strip "abc".toList " \t ".toList 0).2.2 (by decide)

/-- C10: a successful save always writes at least one byte: the empty
buffer is persisted as exactly one newline character, and the persisted
content of any buffer is non-empty (it always ends in `'\n'`). -/
theorem C10_save_nonempty :
    savedContent [] = ['\n'] ∧
    ∀ buffer : List Char, 1 ≤ (savedContent buffer).length ∧
      (savedContent buffer).getLast? = some '\n' := by
  refine ⟨by decide, fun buffer => ?_⟩
  constructor
  · unfold savedContent
    rw [List.length_append]
    simp
  · unfold savedContent
    rw [List.getLast?_append]
    rfl

/-- C5: a failing load leaves the Document Session untouched — `open_file`
with a read error returns exactly the state the session held when the read
was attempted (in particular, from an unmodified session, exactly the
pre-operation state) — and a failing save from a session that has a file
path returns exactly the pre-operation state together with `false`. -/
theorem C5_io_error_preserves_state (st : Session) (c : Choice)
    (sd : Option FsPath) (w : Bool) (p : FsPath) (e : IoErr)
    (d : Option FsPath) :
    (open_file st c sd w (some p) (.error e) =
      (maybe_save_changes st c sd w).1) ∧
    (st.is_modified = false → open_file st c sd w (some p) (.error e) = st) ∧
    (∀ q, st.current_file_path = some q →
      save_file st d false = (st, false)) := by
  refine ⟨?_, ?_, ?_⟩
  · unfold open_file
    by_cases h : (maybe_save_changes st c sd w).2 <;> simp [h]
  · intro h
    unfold open_file
    simp [maybe_save_changes, h]
  · intro q hq
    unfold save_file
    rw [hq]
    rfl

/-- Witness for C5 at a concrete input: opening a missing file from a
freshly started session changes nothing, and a failed write from a session
with a path changes nothing and reports failure. -/
theorem C5_io_error_preserves_state_witness :
    open_file initSession .discardChoice none false (some "a.txt".toList)
      (.error .notFound) = initSession ∧
    save_file ⟨"hi".toList, some "a.txt".toList, true⟩ none false =
      (⟨"hi".toList, some "a.txt".toList, true⟩, false) := by
  have h := C5_io_error_preserves_state initSession .discardChoice none false
    "a.txt".toList .notFound none
  have h2 := C5_io_error_preserves_state ⟨"hi".toList, some "a.txt".toList, true⟩
    .discardChoice none false "a.txt".toList .notFound none
  exact ⟨h.2.1 (by decide), h2.2.2 "a.txt".toList (by decide)⟩

/-- C6: the unsaved-changes guard (`confirmDiscard`) returns `true`
immediately — without consulting the user's choice — whenever the session
is unmodified; otherwise it returns `true` exactly when the user chose
Save and the save succeeded, or the user chose Discard, and it returns
`false` when the user chose Cancel. -/
theorem C6_confirm_discard (st : Session) (c : Choice) (d : Option FsPath)
    (w : Bool) :
    (st.is_modified = false → maybe_save_changes st c d w = (st, true)) ∧
    (st.is_modified = true →
      ((maybe_save_changes st c d w).2 = true ↔
        ((c = .saveChoice ∧ (save_file st d w).2 = true) ∨
          c = .discardChoice))) ∧
    (st.is_modified = true → c = .cancelChoice →
      (maybe_save_changes st c d w).2 = false) := by
  refine ⟨?_, ?_, ?_⟩
  · intro h
    simp [maybe_save_changes, h]
  · intro h
    unfold maybe_save_changes
    rw [h]
    cases c <;> simp
  · intro h hc
    subst hc
    simp [maybe_save_changes, h]

/-- Witness for C6 at a concrete input: with unsaved changes, choosing
Discard makes the guard return `true`, and choosing Cancel makes it
return `false`. -/
theorem C6_confirm_discard_witness :
    (maybe_save_changes ⟨['a'], none, true⟩ .discardChoice none false).2 =
      true ∧
    (maybe_save_changes ⟨['a'], none, true⟩ .cancelChoice none false).2 =
      false := by
  have h := C6_confirm_discard ⟨['a'], none, true⟩ .discardChoice none false
  have h2 := C6_confirm_discard ⟨['a'], none, true⟩ .cancelChoice none false
  exact ⟨(h.2.1 (by decide)).mpr (Or.inr rfl), h2.2.2 (by decide) rfl⟩

/-- C9: Save As assigns the newly chosen path to `current_file_path`
before attempting the write, so when the write fails it returns `false`
with the buffer and modification flag untouched but `current_file_path`
already holding the newly chosen path — even if a different path was held
before. -/
theorem C9_save_as_path_on_failure (st : Session) (p : FsPath) :
    save_file_as st (some p) false =
      ({ st with current_file_path := some p }, false) := by
  rfl

/-- C7: loading a file and then immediately saving it without any edit
persists the file's bytes unchanged except that trailing newlines are
normalized to exactly one: after a successful open the buffer is exactly
the file content, the subsequent save succeeds, and it writes the content
without its trailing newlines followed by a single `'\n'` — the content
itself differs from that core only by trailing newlines, and the core has
no trailing newline. -/
theorem C7_load_save_roundtrip (st : Session) (c : Choice)
    (sd : Option FsPath) (w : Bool) (p : FsPath) (content : List Char)
    (d : Option FsPath)
    (h : (maybe_save_changes st c sd w).2 = true) :
    (open_file st c sd w (some p) (.ok content)).buffer = content ∧
    (open_file st c sd w (some p) (.ok content)).current_file_path = some p ∧
    save_file (open_file st c sd w (some p) (.ok content)) d true =
      ({ open_file st c sd w (some p) (.ok content) with
          is_modified := false }, true) ∧
    save_write_bytes (open_file st c sd w (some p) (.ok content)) =
      pyRstripNL content ++ ['\n'] ∧
    (∃ n, content = pyRstripNL content ++ List.replicate n '\n') ∧
    ((pyRstripNL content).getLast? == some '\n') = false := by
  have hopen : open_file st c sd w (some p) (.ok content) =
      ⟨content, some p, false⟩ := by
    unfold open_file
    simp [h]
  rw [hopen]
  refine ⟨rfl, rfl, rfl, ?_, pyRstripNL_decomposition content,
    pyRstripNL_getLast? content⟩
  show savedContent content = pyRstripNL content ++ ['\n']
  unfold savedContent
  rw [pyRstripNL_append_nl]

/-- Witness for C7 at a concrete input: loading "ab\n\n" into a fresh
session and saving immediately writes exactly "ab\n". -/
theorem C7_load_save_roundtrip_witness :
    save_write_bytes (open_file initSession .discardChoice none false
      (some "n.txt".toList) (.ok "ab\n\n".toList)) = "ab\n".toList := by
  have h := C7_load_save_roundtrip initSession .discardChoice none false
    "n.txt".toList "ab\n\n".toList none (by decide)
  rw [h.2.2.2.1]
  decide

theorem save_file_as_buffer (st : Session) (d : Option FsPath) (w : Bool) :
    (save_file_as st d w).1.buffer = st.buffer := by
  cases d <;> cases w <;> rfl

theorem save_file_buffer (st : Session) (d : Option FsPath) (w : Bool) :
    (save_file st d w).1.buffer = st.buffer := by
  unfold save_file
  cases st.current_file_path
  · exact save_file_as_buffer st d w
  · cases w <;> rfl

theorem save_file_as_modified (st : Session) (d : Option FsPath) (w : Bool) :
    ((save_file_as st d w).2 = true →
      (save_file_as st d w).1.is_modified = false) ∧
    ((save_file_as st d w).2 = false →
      (save_file_as st d w).1.is_modified = st.is_modified) := by
  cases d <;> cases w <;> simp [save_file_as, save_write]

theorem save_file_modified (st : Session) (d : Option FsPath) (w : Bool) :
    ((save_file st d w).2 = true → (save_file st d w).1.is_modified = false) ∧
    ((save_file st d w).2 = false →
      (save_file st d w).1.is_modified = st.is_modified) := by
  unfold save_file
  cases st.current_file_path
  · exact save_file_as_modified st d w
  · cases w <;> simp [save_write]

theorem maybe_save_changes_false_modified (st : Session) (c : Choice)
    (d : Option FsPath) (w : Bool)
    (h : (maybe_save_changes st c d w).2 = false) :
    (maybe_save_changes st c d w).1.is_modified = true := by
  unfold maybe_save_changes at h ⊢
  by_cases hm : st.is_modified = false
  · rw [if_pos hm] at h
    exact Bool.noConfusion h
  · have hm' : st.is_modified = true := by
      revert hm
      cases st.is_modified <;> simp
    rw [if_neg hm] at h ⊢
    cases c
    · rw [(save_file_modified st d w).2 h]
      exact hm'
    · exact absurd h (by simp)
    · exact hm'

theorem guard_ok_buffer_snap (g : GSession) (c : Choice) (sd : Option FsPath)
    (w : Bool) (ih : g.sess.is_modified = false → g.sess.buffer = g.lastSnap)
    (hms : (maybe_save_changes g.sess c sd w).2 = true)
    (hm : (maybe_save_changes g.sess c sd w).1.is_modified = false) :
    (maybe_save_changes g.sess c sd w).1.buffer =
      (confirmSnap g.sess c sd w).getD g.lastSnap := by
  by_cases h0 : g.sess.is_modified = false
  · have hms1 : maybe_save_changes g.sess c sd w = (g.sess, true) := by
      simp [maybe_save_changes, h0]
    have hcs : confirmSnap g.sess c sd w = none := by
      unfold confirmSnap
      rw [if_neg]
      rintro ⟨h1, -⟩
      rw [h0] at h1
      exact Bool.noConfusion h1
    rw [hms1, hcs]
    exact ih h0
  · have h0' : g.sess.is_modified = true := by
      revert h0
      cases g.sess.is_modified <;> simp
    cases c
    · have hms1 : maybe_save_changes g.sess .saveChoice sd w =
          save_file g.sess sd w := by
        simp [maybe_save_changes, h0']
      rw [hms1] at hms ⊢
      have hcs : confirmSnap g.sess .saveChoice sd w = some g.sess.buffer := by
        unfold confirmSnap
        rw [if_pos ⟨h0', rfl, hms⟩]
      rw [hcs]
      exact save_file_buffer g.sess sd w
    · have hms1 : maybe_save_changes g.sess .discardChoice sd w =
          (g.sess, true) := by
        simp [maybe_save_changes, h0']
      rw [hms1] at hm
      rw [h0'] at hm
      exact Bool.noConfusion hm
    · have hms1 : maybe_save_changes g.sess .cancelChoice sd w =
          (g.sess, false) := by
        simp [maybe_save_changes, h0']
      rw [hms1] at hms
      exact Bool.noConfusion hms

/-- C4 as stated is false on the code: after typing a character and then
deleting it, the session is back at the last-loaded/saved content (the
empty fresh content) yet `is_modified` is still `true`, because the
`<<Modified>>` handler sets the flag on every edit without comparing the
buffer to the persisted content.  This reachable state has
`is_modified = true` while the buffer equals the last-loaded/saved
content, refuting the claimed "if and only if". -/
theorem C4_counterexample :
    Reachable (gstep (gstep initG (.edit ['a'])) (.edit [])) ∧
    (gstep (gstep initG (.edit ['a'])) (.edit [])).sess.is_modified = true ∧
    (gstep (gstep initG (.edit ['a'])) (.edit [])).sess.buffer =
      (gstep (gstep initG (.edit ['a'])) (.edit [])).lastSnap :=
  ⟨Reachable.step _ _ (Reachable.step _ _ Reachable.init), by decide, by decide⟩

/-- C4 amended: in every reachable Document Session state, if `isModified`
is false then the buffer equals the content last loaded from or saved to
the file (the empty content for a fresh session); equivalently,
`isModified` is true whenever the buffer differs from that content.  The
converse direction of the original claim does not hold (see the
counterexample): an edit that restores the previous content leaves
`isModified` true. -/
theorem C4_amended_modified_tracks_buffer (g : GSession) (h : Reachable g) :
    g.sess.is_modified = false → g.sess.buffer = g.lastSnap := by
  induction h with
  | init => intro _; rfl
  | step g e hg ih =>
    cases e with
    | edit b =>
      intro hm
      exact Bool.noConfusion hm
    | saveEv d w =>
      simp only [gstep]
      intro hm
      rw [save_file_buffer]
      cases hs : (save_file g.sess d w).2
      · rw [if_neg (fun hh => Bool.noConfusion hh)]
        have hmod := (save_file_modified g.sess d w).2 hs
        rw [hmod] at hm
        exact ih hm
      · rw [if_pos rfl]
    | saveAsEv d w =>
      simp only [gstep]
      intro hm
      rw [save_file_as_buffer]
      cases hs : (save_file_as g.sess d w).2
      · rw [if_neg (fun hh => Bool.noConfusion hh)]
        have hmod := (save_file_as_modified g.sess d w).2 hs
        rw [hmod] at hm
        exact ih hm
      · rw [if_pos rfl]
    | newEv c d w =>
      simp only [gstep, new_file]
      cases hms : (maybe_save_changes g.sess c d w).2
      · rw [if_neg (fun hh => Bool.noConfusion hh),
          if_neg (fun hh => Bool.noConfusion hh)]
        dsimp only
        intro hm
        have hmod := maybe_save_changes_false_modified g.sess c d w hms
        rw [hmod] at hm
        exact Bool.noConfusion hm
      · rw [if_pos rfl, if_pos rfl]
        intro _
        rfl
    | openEv c sd w od rd =>
      simp only [gstep, open_file]
      cases hms : (maybe_save_changes g.sess c sd w).2
      · rw [if_neg (fun hh => Bool.noConfusion hh),
          if_neg (fun hh => Bool.noConfusion hh)]
        dsimp only
        intro hm
        have hmod := maybe_save_changes_false_modified g.sess c sd w hms
        rw [hmod] at hm
        exact Bool.noConfusion hm
      · rw [if_pos rfl, if_pos rfl]
        rcases od with _ | p
        · dsimp only
          intro hm
          exact guard_ok_buffer_snap g c sd w ih hms hm
        · rcases rd with e | content
          · dsimp only
            intro hm
            exact guard_ok_buffer_snap g c sd w ih hms hm
          · intro _
            rfl

/-- Witness for the amended C4 at a concrete input: after editing to "a"
and saving it under a path, the reachable state is unmodified and the
theorem yields that its buffer equals the last-saved content. -/
theorem C4_amended_modified_tracks_buffer_witness :
    (gstep (gstep initG (.edit ['a'])) (.saveAsEv (some "a.txt".toList)
      true)).sess.buffer =
    (gstep (gstep initG (.edit ['a'])) (.saveAsEv (some "a.txt".toList)
      true)).lastSnap := by
  refine C4_amended_modified_tracks_buffer _
    (Reachable.step _ _ (Reachable.step _ _ Reachable.init)) ?_
  decide

end NoteTaker
